import Mathlib

/-!
Verification development for the deer-flow asynchronous task / event-replay
core.  The frontend code (SSE parsing, the chat stream client, the chat
history store, the canonical event types) is shallowly embedded from the
TypeScript sources; the backend event-log offset arithmetic and the task
state machine, whose implementation is not part of this repository snapshot,
are modelled from the specification's own words.
-/

namespace DeerFlow

/-! ## Event-log stream identifiers and offset arithmetic (spec §4.1) -/

/-- Modelled from the spec: an event id is a string of the form
`<ms-timestamp>-<seq>` where `seq` disambiguates sub-millisecond appends.
The backend event log is not part of the repository snapshot; only the spec
describes it. -/
structure StreamId where
  ms : Nat
  seq : Nat
deriving DecidableEq, Repr

/-- Modelled from the spec: stream order on ids, by millisecond timestamp
then by sequence number (lexicographic order of the rendered string matches
append order for ids assigned by one log). -/
def idLt (a b : StreamId) : Prop :=
  a.ms < b.ms ∨ (a.ms = b.ms ∧ a.seq < b.seq)

instance (a b : StreamId) : Decidable (idLt a b) := by
  unfold idLt; infer_instance

/-- The string rendering `<ms>-<seq>` of a stream id. -/
def renderId (i : StreamId) : String :=
  toString i.ms ++ "-" ++ toString i.seq

/-- Modelled from the spec: `next_id("t-s") = "t-(s+1)"` (§4.1, offset
arithmetic). -/
def next_id (i : StreamId) : StreamId :=
  ⟨i.ms, i.seq + 1⟩

/-- An entry of one per-task append-only event stream. -/
structure LogEvent where
  id : StreamId
  kind : String
  payload : List (String × String)
deriving DecidableEq, Repr

/-- Modelled from the spec: `range(key, from_id, to_id, limit)` returns the
events whose ids lie in the half-open interval `(from_id, to_id]` (§4.1);
here with `to_id = "+"` (unbounded) and no limit, i.e. all events of the
stream with id strictly greater than `from_id`. -/
def rangeRead (fromId : StreamId) (log : List LogEvent) : List LogEvent :=
  log.filter (fun e => decide (idLt fromId e.id))

theorem idLt_irrefl (a : StreamId) : ¬ idLt a a := by
  unfold idLt; omega

theorem not_idLt_next_self (i : StreamId) : ¬ idLt (next_id i) i := by
  show ¬ (i.ms < i.ms ∨ (i.ms = i.ms ∧ i.seq + 1 < i.seq))
  omega

theorem mem_rangeRead {fromId : StreamId} {log : List LogEvent} {e : LogEvent} :
    e ∈ rangeRead fromId log ↔ e ∈ log ∧ idLt fromId e.id := by
  unfold rangeRead
  simp [List.mem_filter]

/-- C1, as stated, fails against the spec's own `range` semantics: `range`
is exclusive of `from_id` (half-open interval `(from_id, to_id]`), so a read
that starts from `next_id` of the last delivered event skips an event whose
id is exactly `t-(s+1)` — here the second append of millisecond 1, which is
later than the delivered event `1-0` and yet is not returned. -/
theorem c1_skips_successor_counterexample :
    idLt (⟨1, 0⟩ : StreamId) ⟨1, 1⟩ ∧
    (⟨⟨1, 1⟩, "message_chunk", []⟩ : LogEvent) ∈
      ([⟨⟨1, 0⟩, "message_chunk", []⟩, ⟨⟨1, 1⟩, "message_chunk", []⟩] : List LogEvent) ∧
    (⟨⟨1, 1⟩, "message_chunk", []⟩ : LogEvent) ∉
      rangeRead (next_id ⟨1, 0⟩)
        [⟨⟨1, 0⟩, "message_chunk", []⟩, ⟨⟨1, 1⟩, "message_chunk", []⟩] := by
  refine ⟨by decide, by decide, ?_⟩
  intro h
  have h2 := (mem_rangeRead.mp h).2
  exact absurd h2 (by decide)

/-- C1 (amended): for an event id `t-s`, `next_id` returns `t-(s+1)`, which
is strictly greater in stream order; a `range` read starting from
`next_id` of the last delivered event never redelivers that event, and it
delivers every event of the log that is strictly later than `t-(s+1)` (an
event with id exactly `t-(s+1)` is skipped by the half-open read, see the
counterexample). -/
theorem c1_next_id_advances (t s : Nat) (log : List LogEvent) (last : LogEvent)
    (hid : last.id = ⟨t, s⟩) :
    (next_id last.id = ⟨t, s + 1⟩ ∧ idLt last.id (next_id last.id)) ∧
    last ∉ rangeRead (next_id last.id) log ∧
    (∀ later ∈ log, idLt (next_id last.id) later.id →
      later ∈ rangeRead (next_id last.id) log) := by
  refine ⟨⟨by rw [hid]; rfl, ?_⟩, ?_, ?_⟩
  · show last.id.ms < last.id.ms ∨ (last.id.ms = last.id.ms ∧ last.id.seq < last.id.seq + 1)
    omega
  · intro h
    exact absurd (mem_rangeRead.mp h).2 (not_idLt_next_self last.id)
  · intro later hmem hlt
    exact mem_rangeRead.mpr ⟨hmem, hlt⟩

/-- Witness: `c1_next_id_advances` at the concrete id `5-2` over a
two-event log. -/
theorem c1_next_id_advances_witness :
    (next_id (⟨5, 2⟩ : StreamId) = ⟨5, 3⟩ ∧ idLt (⟨5, 2⟩ : StreamId) (next_id ⟨5, 2⟩)) ∧
    (⟨⟨5, 2⟩, "tool_calls", []⟩ : LogEvent) ∉
      rangeRead (next_id (⟨5, 2⟩ : StreamId))
        [⟨⟨5, 2⟩, "tool_calls", []⟩, ⟨⟨6, 0⟩, "replay_end", []⟩] ∧
    (∀ later ∈ ([⟨⟨5, 2⟩, "tool_calls", []⟩, ⟨⟨6, 0⟩, "replay_end", []⟩] : List LogEvent),
      idLt (next_id (⟨5, 2⟩ : StreamId)) later.id →
      later ∈ rangeRead (next_id (⟨5, 2⟩ : StreamId))
        [⟨⟨5, 2⟩, "tool_calls", []⟩, ⟨⟨6, 0⟩, "replay_end", []⟩]) := by
  have h := c1_next_id_advances 5 2
    [⟨⟨5, 2⟩, "tool_calls", []⟩, ⟨⟨6, 0⟩, "replay_end", []⟩]
    ⟨⟨5, 2⟩, "tool_calls", []⟩ rfl
  exact h

/-! ## The client's canonical event union (web/src/core/api/types.ts) -/

/-- The variants of the `ChatEvent` union in `web/src/core/api/types.ts`
(lines 103–111): `MessageChunkEvent`, `ToolCallsEvent`, `ToolCallChunksEvent`,
`ToolCallResultEvent`, `InterruptEvent`, `ReplayEndEvent`, `ErrorEvent`,
`ResearchEndEvent`. -/
inductive ChatEventType
  | messageChunk
  | toolCalls
  | toolCallChunks
  | toolCallResult
  | interrupt
  | replayEnd
  | errorEvent
  | researchEnd
deriving DecidableEq, Repr

/-- The wire kind tag of each `ChatEvent` variant, read off the first type
argument of `GenericEvent` in each interface of `types.ts`. -/
def chatEventKind : ChatEventType → String
  | .messageChunk => "message_chunk"
  | .toolCalls => "tool_calls"
  | .toolCallChunks => "tool_call_chunks"
  | .toolCallResult => "tool_call_result"
  | .interrupt => "interrupt"
  | .replayEnd => "replay_end"
  | .errorEvent => "error"
  | .researchEnd => "research_end"

/-- The spec's wire vocabulary of canonical event kinds (spec §6.2): nine
kinds.  Stated from the spec's words, to be compared with the union embedded
from `types.ts`. -/
def specWireKinds : List String :=
  ["message_chunk", "tool_calls", "tool_call_chunks", "tool_call_result",
   "interrupt", "research_start", "research_end", "error", "replay_end"]

/-- C2, as stated, fails: `research_start` is in the spec's nine wire kinds,
but no variant of the client's `ChatEvent` union carries it — the union in
`types.ts` has only eight members and omits a `research_start` event. -/
theorem c2_research_start_counterexample :
    "research_start" ∈ specWireKinds ∧
    ¬ ∃ e : ChatEventType, chatEventKind e = "research_start" := by
  constructor
  · decide
  · rintro ⟨e, he⟩
    cases e <;> simp [chatEventKind] at he

/-- C2 (amended): every value of the client's `ChatEvent` union has one of
the nine canonical wire kinds, and each of the nine kinds except
`research_start` is representable as a `ChatEvent`; `research_start` is the
one wire kind with no variant in the union. -/
theorem c2_chat_event_kinds (k : String) (hk : k ∈ specWireKinds)
    (hne : k ≠ "research_start") :
    (∀ e : ChatEventType, chatEventKind e ∈ specWireKinds) ∧
    ∃ e : ChatEventType, chatEventKind e = k := by
  constructor
  · intro e; cases e <;> decide
  · simp only [specWireKinds, List.mem_cons, List.not_mem_nil, or_false] at hk
    rcases hk with rfl | rfl | rfl | rfl | rfl | rfl | rfl | rfl | rfl
    · exact ⟨.messageChunk, rfl⟩
    · exact ⟨.toolCalls, rfl⟩
    · exact ⟨.toolCallChunks, rfl⟩
    · exact ⟨.toolCallResult, rfl⟩
    · exact ⟨.interrupt, rfl⟩
    · exact absurd rfl hne
    · exact ⟨.researchEnd, rfl⟩
    · exact ⟨.errorEvent, rfl⟩
    · exact ⟨.replayEnd, rfl⟩

/-- Witness: `c2_chat_event_kinds` at the concrete kind `tool_calls`. -/
theorem c2_chat_event_kinds_witness :
    (∀ e : ChatEventType, chatEventKind e ∈ specWireKinds) ∧
    ∃ e : ChatEventType, chatEventKind e = "tool_calls" :=
  c2_chat_event_kinds "tool_calls" (by decide) (by decide)

/-! ## Fields of each event's `data` object (types.ts, `GenericEvent`) -/

/-- The required fields of the common `data` object of `GenericEvent`
(`types.ts` lines 25–34): `id`, `thread_id`, `agent`, `role` are required;
`finish_reason` is optional. -/
def commonRequiredDataFields : List String :=
  ["id", "thread_id", "agent", "role"]

/-- The optional fields of the common `data` object of `GenericEvent`. -/
def commonOptionalDataFields : List String :=
  ["finish_reason"]

/-- The variant-specific fields added to `data` by each interface of
`types.ts` (both required and optional ones). -/
def variantDataFields : ChatEventType → List String
  | .messageChunk => ["content", "reasoning_content"]
  | .toolCalls => ["tool_calls", "tool_call_chunks"]
  | .toolCallChunks => ["tool_call_chunks"]
  | .toolCallResult => ["tool_call_id", "content"]
  | .interrupt => ["options"]
  | .replayEnd => ["message"]
  | .errorEvent => ["message"]
  | .researchEnd => ["research_id", "status"]

/-- All fields declared on the `data` object of a given `ChatEvent`
variant. -/
def dataFields (t : ChatEventType) : List String :=
  commonRequiredDataFields ++ commonOptionalDataFields ++ variantDataFields t

/-- C5: the `data` object of every value of the `ChatEvent` union declares
the four fields `id`, `thread_id`, `agent` and `role`, for every event kind;
moreover they are required (non-optional) fields. -/
theorem c5_common_fields_present (t : ChatEventType) :
    ("id" ∈ dataFields t ∧ "thread_id" ∈ dataFields t ∧
     "agent" ∈ dataFields t ∧ "role" ∈ dataFields t) ∧
    ("id" ∈ commonRequiredDataFields ∧ "thread_id" ∈ commonRequiredDataFields ∧
     "agent" ∈ commonRequiredDataFields ∧ "role" ∈ commonRequiredDataFields) := by
  cases t <;> exact ⟨by decide, by decide⟩

/-! ## SSE stream parsing (`fetchStream` / `parseEvent` from the client)

The client code reads the SSE body chunk by chunk, splits the buffer at
every `"\n\n"`, and parses each complete chunk with `parseEvent`.  Strings
are embedded as `List Char` (`String.data`) so that all operations are
plain structural recursion. -/

/-- A parsed SSE event as produced by `parseEvent`: the `event` name and
the `data` text; `data` is `none` when no `data: ` line was seen (JS
`null`). -/
structure StreamEvent where
  event : List Char
  data : Option (List Char)
deriving DecidableEq, Repr

/-- JS `indexOf` of the two-character pattern `x y` in a character list,
returned as the split around the first occurrence: `some (before, after)`,
or `none` when the pattern does not occur (JS `indexOf` returning `-1`).
Used for `buffer.indexOf("\n\n")` and `line.indexOf(": ")`. -/
def breakPair (x y : Char) : List Char → Option (List Char × List Char)
  | [] => none
  | [_] => none
  | c :: d :: rest =>
    if c = x ∧ d = y then some ([], rest)
    else (breakPair x y (d :: rest)).map (fun p => (c :: p.1, p.2))

/-- JS `chunk.split("\n")`. -/
def splitNl : List Char → List (List Char)
  | [] => [[]]
  | c :: rest =>
    let r := splitNl rest
    if c = '\n' then [] :: r
    else
      match r with
      | [] => [[c]]
      | l :: ls => (c :: l) :: ls

/-- One iteration of `parseEvent`'s line loop (`fetch-stream.ts`): a line
without the `": "` separator is skipped (`continue`); a line keyed `event`
replaces the accumulated event name; a line keyed `data` replaces the
accumulated data; any other key is ignored. -/
def parseLineStep (st : List Char × Option (List Char)) (line : List Char) :
    List Char × Option (List Char) :=
  match breakPair ':' ' ' line with
  | none => st
  | some (key, value) =>
    if key = "event".data then (value, st.2)
    else if key = "data".data then (st.1, some value)
    else st

/-- `parseEvent` from `fetch-stream.ts`: fold the line loop over the split
chunk starting from `("message", null)`; return `undefined` (`none`) when
the result is still `("message", null)`, else the event. -/
def parseEvent (chunk : List Char) : Option StreamEvent :=
  let st := (splitNl chunk).foldl parseLineStep ("message".data, none)
  if st.1 = "message".data ∧ st.2 = none then none
  else some ⟨st.1, st.2⟩

theorem breakPair_length {x y : Char} : ∀ {l a b : List Char},
    breakPair x y l = some (a, b) → l.length = a.length + 2 + b.length
  | [], _, _, h => by simp [breakPair] at h
  | [_], _, _, h => by simp [breakPair] at h
  | c :: d :: rest, a, b, h => by
    rw [breakPair] at h
    by_cases hc : c = x ∧ d = y
    · rw [if_pos hc] at h
      cases h
      simp only [List.length_cons, List.length_nil]
      omega
    · rw [if_neg hc] at h
      match hb : breakPair x y (d :: rest) with
      | none =>
        rw [hb] at h
        exact absurd h (by simp)
      | some (a2, b2) =>
        rw [hb] at h
        simp only [Option.map_some', Option.some.injEq] at h
        obtain ⟨rfl, rfl⟩ := Prod.mk.injEq .. ▸ h
        have := breakPair_length hb
        simp at this ⊢
        omega

/-- The inner `while` of `fetchStream`: repeatedly cut the buffer at the
first `"\n\n"`, collecting the complete chunks in order; the remainder
(with no `"\n\n"` inside) stays in the buffer. -/
def drainFrames (buf : List Char) : List (List Char) × List Char :=
  match h : breakPair '\n' '\n' buf with
  | none => ([], buf)
  | some (frame, rest) =>
    let p := drainFrames rest
    (frame :: p.1, p.2)
termination_by buf.length
decreasing_by
  have := breakPair_length h
  omega

/-- The reader loop of `fetchStream`: each read chunk is appended to the
buffer, all complete frames are drained and parsed (yielding the parsed
events in order, skipping `undefined` results); at end of stream the
leftover buffer is discarded. -/
def fetchStreamAux : List Char → List (List Char) → List StreamEvent
  | _, [] => []
  | buffer, v :: vs =>
    let p := drainFrames (buffer ++ v)
    p.1.filterMap parseEvent ++ fetchStreamAux p.2 vs

/-- `fetchStream` on the list of chunks delivered by the response body
reader, starting from an empty buffer. -/
def fetchStream (chunks : List (List Char)) : List StreamEvent :=
  fetchStreamAux [] chunks

/-- The body of a well-formed SSE frame `event: <kind>\ndata: <json>`
(without the terminating blank line). -/
def frameBody (kind json : List Char) : List Char :=
  "event: ".data ++ kind ++ '\n' :: ("data: ".data ++ json)

/-- A complete well-formed SSE frame `event: <kind>\ndata: <json>\n\n`. -/
def renderFrame (kind json : List Char) : List Char :=
  frameBody kind json ++ ['\n', '\n']

/-- A byte stream made of consecutive well-formed SSE frames. -/
def renderStream (frames : List (List Char × List Char)) : List Char :=
  (frames.map fun p => renderFrame p.1 p.2).flatten

/-- The value carried by a line whose key (text before the first `": "`)
is `key`, if any. -/
def lineValueFor (key : List Char) (line : List Char) : Option (List Char) :=
  match breakPair ':' ' ' line with
  | some (k, v) => if k = key then some v else none
  | none => none

/-- All values of `key`-keyed lines of a chunk, in order. -/
def keyValues (key chunk : List Char) : List (List Char) :=
  (splitNl chunk).filterMap (lineValueFor key)

/-- Whether some line of the chunk is keyed `key`. -/
def hasKeyLine (key chunk : List Char) : Bool :=
  !(keyValues key chunk).isEmpty

/-- The value of the last `key`-keyed line of a chunk, if any. -/
def lastValueFor (key chunk : List Char) : Option (List Char) :=
  (keyValues key chunk).getLast?

theorem breakPair_start {x y : Char} (rest : List Char) :
    breakPair x y (x :: y :: rest) = some ([], rest) := by
  rw [breakPair, if_pos ⟨rfl, rfl⟩]

theorem breakPair_append_left {x y : Char} {a : List Char} (ha : x ∉ a) (m : List Char) :
    breakPair x y (a ++ m) = (breakPair x y m).map (fun p => (a ++ p.1, p.2)) := by
  induction a with
  | nil =>
    simp only [List.nil_append]
    cases breakPair x y m <;> simp
  | cons c a ih =>
    have hc : c ≠ x := fun e => ha (e ▸ List.mem_cons_self c a)
    have ha2 : x ∉ a := fun hx => ha (List.mem_cons_of_mem _ hx)
    rw [List.cons_append]
    cases hm : a ++ m with
    | nil =>
      obtain ⟨rfl, rfl⟩ := List.append_eq_nil.mp hm
      simp [breakPair]
    | cons d rest =>
      rw [breakPair, if_neg (fun hcd => hc hcd.1), ← hm, ih ha2]
      cases breakPair x y m <;> simp

theorem nl_not_mem_eventLine {kind : List Char} (hk : '\n' ∉ kind) :
    '\n' ∉ "event: ".data ++ kind := by
  intro hmem
  rcases List.mem_append.mp hmem with h1 | h2
  · exact absurd h1 (by decide)
  · exact hk h2

theorem nl_not_mem_dataLine {json : List Char} (hj : '\n' ∉ json) :
    '\n' ∉ "data: ".data ++ json := by
  intro hmem
  rcases List.mem_append.mp hmem with h1 | h2
  · exact absurd h1 (by decide)
  · exact hj h2

theorem breakPair_frame {kind json : List Char} (hk : '\n' ∉ kind) (hj : '\n' ∉ json)
    (rest : List Char) :
    breakPair '\n' '\n' (frameBody kind json ++ '\n' :: '\n' :: rest) =
      some (frameBody kind json, rest) := by
  have hshape : frameBody kind json ++ '\n' :: '\n' :: rest =
      ("event: ".data ++ kind) ++
        ('\n' :: (("data: ".data ++ json) ++ '\n' :: '\n' :: rest)) := by
    simp [frameBody]
  rw [hshape, breakPair_append_left (nl_not_mem_eventLine hk)]
  have hdshape : ('\n' :: (("data: ".data ++ json) ++ '\n' :: '\n' :: rest)) =
      '\n' :: 'd' :: (("ata: ".data ++ json) ++ '\n' :: '\n' :: rest) := by
    simp
  rw [hdshape, breakPair, if_neg (by decide)]
  have hback : 'd' :: (("ata: ".data ++ json) ++ '\n' :: '\n' :: rest) =
      ("data: ".data ++ json) ++ '\n' :: '\n' :: rest := by
    simp
  rw [hback, breakPair_append_left (nl_not_mem_dataLine hj), breakPair_start]
  simp [frameBody]

theorem splitNl_no_nl {a : List Char} (h : '\n' ∉ a) : splitNl a = [a] := by
  induction a with
  | nil => rfl
  | cons c a ih =>
    have hc : c ≠ '\n' := fun e => h (e ▸ List.mem_cons_self c a)
    have ha : '\n' ∉ a := fun hx => h (List.mem_cons_of_mem _ hx)
    simp [splitNl, hc, ih ha]

theorem splitNl_append {a : List Char} (b : List Char) (h : '\n' ∉ a) :
    splitNl (a ++ '\n' :: b) = a :: splitNl b := by
  induction a with
  | nil => simp [splitNl]
  | cons c a ih =>
    have hc : c ≠ '\n' := fun e => h (e ▸ List.mem_cons_self c a)
    have ha : '\n' ∉ a := fun hx => h (List.mem_cons_of_mem _ hx)
    rw [List.cons_append]
    simp [splitNl, hc, ih ha]

theorem breakPair_eventLine (kind : List Char) :
    breakPair ':' ' ' ("event: ".data ++ kind) = some ("event".data, kind) := by
  have hshape : "event: ".data ++ kind = "event".data ++ (':' :: ' ' :: kind) := rfl
  rw [hshape, breakPair_append_left (by decide), breakPair_start]
  rfl

theorem breakPair_dataLine (json : List Char) :
    breakPair ':' ' ' ("data: ".data ++ json) = some ("data".data, json) := by
  have hshape : "data: ".data ++ json = "data".data ++ (':' :: ' ' :: json) := rfl
  rw [hshape, breakPair_append_left (by decide), breakPair_start]
  rfl

theorem splitNl_frameBody {kind json : List Char} (hk : '\n' ∉ kind) (hj : '\n' ∉ json) :
    splitNl (frameBody kind json) =
      ["event: ".data ++ kind, "data: ".data ++ json] := by
  have hshape : frameBody kind json =
      ("event: ".data ++ kind) ++ '\n' :: ("data: ".data ++ json) := by
    simp [frameBody]
  rw [hshape, splitNl_append _ (nl_not_mem_eventLine hk),
    splitNl_no_nl (nl_not_mem_dataLine hj)]

theorem parseLineStep_skip {line : List Char} (h : breakPair ':' ' ' line = none)
    (st : List Char × Option (List Char)) : parseLineStep st line = st := by
  simp only [parseLineStep, h]

theorem parseLineStep_event {line value : List Char}
    (h : breakPair ':' ' ' line = some ("event".data, value))
    (st : List Char × Option (List Char)) : parseLineStep st line = (value, st.2) := by
  simp only [parseLineStep, h]
  simp

theorem parseLineStep_data {line value : List Char}
    (h : breakPair ':' ' ' line = some ("data".data, value))
    (st : List Char × Option (List Char)) : parseLineStep st line = (st.1, some value) := by
  simp only [parseLineStep, h]
  simp [(by decide : ¬ ("data".data = "event".data))]

theorem parseLineStep_other {line key value : List Char}
    (h : breakPair ':' ' ' line = some (key, value))
    (hke : key ≠ "event".data) (hkd : key ≠ "data".data)
    (st : List Char × Option (List Char)) : parseLineStep st line = st := by
  simp only [parseLineStep, h]
  simp [hke, hkd]

theorem parseEvent_frameBody {kind json : List Char} (hk : '\n' ∉ kind) (hj : '\n' ∉ json) :
    parseEvent (frameBody kind json) = some ⟨kind, some json⟩ := by
  have hfold : [("event: ".data ++ kind), ("data: ".data ++ json)].foldl
      parseLineStep ("message".data, none) = (kind, some json) := by
    simp only [List.foldl_cons, List.foldl_nil]
    rw [parseLineStep_event (breakPair_eventLine kind),
      parseLineStep_data (breakPair_dataLine json)]
  unfold parseEvent
  rw [splitNl_frameBody hk hj, hfold]
  simp

theorem drainFrames_eq_none {buf : List Char} (h : breakPair '\n' '\n' buf = none) :
    drainFrames buf = ([], buf) := by
  rw [drainFrames, h]

theorem drainFrames_eq_some {buf frame rest : List Char}
    (h : breakPair '\n' '\n' buf = some (frame, rest)) :
    drainFrames buf = (frame :: (drainFrames rest).1, (drainFrames rest).2) := by
  rw [drainFrames, h]

theorem breakPair_append_some {x y : Char} : ∀ {s a b : List Char} (t : List Char),
    breakPair x y s = some (a, b) → breakPair x y (s ++ t) = some (a, b ++ t)
  | [], _, _, t, h => by simp [breakPair] at h
  | [_], _, _, t, h => by simp [breakPair] at h
  | c :: d :: rest, a, b, t, h => by
    rw [breakPair] at h
    rw [List.cons_append, List.cons_append, breakPair]
    by_cases hc : c = x ∧ d = y
    · rw [if_pos hc] at h ⊢
      cases h
      rfl
    · rw [if_neg hc] at h ⊢
      match hb : breakPair x y (d :: rest) with
      | none =>
        rw [hb] at h
        exact absurd h (by simp)
      | some (a2, b2) =>
        rw [hb] at h
        simp only [Option.map_some', Option.some.injEq] at h
        obtain ⟨rfl, rfl⟩ := Prod.mk.injEq .. ▸ h
        have hstep := breakPair_append_some t hb
        rw [List.cons_append] at hstep
        rw [hstep]
        rfl

theorem drainFrames_append (u t : List Char) :
    drainFrames (u ++ t) =
      ((drainFrames u).1 ++ (drainFrames ((drainFrames u).2 ++ t)).1,
        (drainFrames ((drainFrames u).2 ++ t)).2) := by
  cases h : breakPair '\n' '\n' u with
  | none =>
    rw [drainFrames_eq_none h]
    simp
  | some p =>
    obtain ⟨a, rest⟩ := p
    have hl := breakPair_length h
    have ih := drainFrames_append rest t
    rw [drainFrames_eq_some (breakPair_append_some t h), drainFrames_eq_some h, ih]
    simp
termination_by u.length
decreasing_by omega

theorem drainFrames_rest_none (u : List Char) :
    breakPair '\n' '\n' (drainFrames u).2 = none := by
  cases h : breakPair '\n' '\n' u with
  | none =>
    rw [drainFrames_eq_none h]
    exact h
  | some p =>
    obtain ⟨a, rest⟩ := p
    have hl := breakPair_length h
    rw [drainFrames_eq_some h]
    exact drainFrames_rest_none rest
termination_by u.length
decreasing_by omega

theorem fetchStreamAux_join (vs : List (List Char)) : ∀ (b : List Char),
    breakPair '\n' '\n' b = none →
    fetchStreamAux b vs = (drainFrames (b ++ vs.flatten)).1.filterMap parseEvent := by
  induction vs with
  | nil =>
    intro b hb
    rw [fetchStreamAux, List.flatten_nil, List.append_nil, drainFrames_eq_none hb]
    rfl
  | cons v vs ih =>
    intro b hb
    simp only [fetchStreamAux]
    rw [ih _ (drainFrames_rest_none (b ++ v)), List.flatten_cons, ← List.append_assoc,
      drainFrames_append (b ++ v) vs.flatten]
    simp [List.filterMap_append]

/-- Chunking invariance of `fetchStream`: however the network delivers the
byte stream in chunks, the yielded events are those of the drained,
parseable frames of the full stream. -/
theorem fetchStream_eq (chunks : List (List Char)) :
    fetchStream chunks = (drainFrames chunks.flatten).1.filterMap parseEvent := by
  unfold fetchStream
  rw [fetchStreamAux_join chunks [] rfl]
  rfl

theorem drainFrames_renderStream : ∀ (frames : List (List Char × List Char)),
    (∀ p ∈ frames, '\n' ∉ p.1 ∧ '\n' ∉ p.2) →
    drainFrames (renderStream frames) = (frames.map fun p => frameBody p.1 p.2, []) := by
  intro frames
  induction frames with
  | nil =>
    intro _
    show drainFrames [] =
      (List.map (fun p : List Char × List Char => frameBody p.1 p.2) [], [])
    rw [@drainFrames_eq_none ([] : List Char) rfl]
    rfl
  | cons p ps ih =>
    intro h
    have h1 : '\n' ∉ p.1 := (h p (List.mem_cons_self p ps)).1
    have h2 : '\n' ∉ p.2 := (h p (List.mem_cons_self p ps)).2
    have hshape : renderStream (p :: ps) =
        frameBody p.1 p.2 ++ '\n' :: '\n' :: renderStream ps := by
      simp [renderStream, renderFrame]
    rw [hshape, drainFrames_eq_some (breakPair_frame h1 h2 (renderStream ps)),
      ih (fun q hq => h q (List.mem_cons_of_mem _ hq))]
    simp

theorem filterMap_parse_frames : ∀ (frames : List (List Char × List Char)),
    (∀ p ∈ frames, '\n' ∉ p.1 ∧ '\n' ∉ p.2) →
    (frames.map fun p => frameBody p.1 p.2).filterMap parseEvent =
      frames.map fun p => StreamEvent.mk p.1 (some p.2) := by
  intro frames
  induction frames with
  | nil => intro _; rfl
  | cons p ps ih =>
    intro h
    have hp := h p (List.mem_cons_self p ps)
    simp only [List.map_cons, List.filterMap_cons, parseEvent_frameBody hp.1 hp.2]
    rw [ih (fun q hq => h q (List.mem_cons_of_mem _ hq))]

/-- C4: for every SSE byte stream consisting of well-formed frames
`event: <kind>\ndata: <json>\n\n` (kinds and payloads free of newlines),
and for every way the network chunks that stream, `fetchStream` yields
exactly one parsed event per frame, in input order; and `parseEvent` of
such a frame chunk returns the event whose `event` field is the kind and
whose `data` field is the json text. -/
theorem c4_fetch_stream_well_formed_frames (chunks : List (List Char))
    (frames : List (List Char × List Char))
    (hjoin : chunks.flatten = renderStream frames)
    (hwf : ∀ p ∈ frames, '\n' ∉ p.1 ∧ '\n' ∉ p.2) :
    fetchStream chunks = (frames.map fun p => StreamEvent.mk p.1 (some p.2)) ∧
    (∀ kind json : List Char, '\n' ∉ kind → '\n' ∉ json →
      parseEvent (frameBody kind json) = some ⟨kind, some json⟩) := by
  constructor
  · rw [fetchStream_eq, hjoin, drainFrames_renderStream frames hwf]
    exact filterMap_parse_frames frames hwf
  · intro kind json hk hj
    exact parseEvent_frameBody hk hj

/-- Witness: `c4_fetch_stream_well_formed_frames` on a concrete one-frame
stream delivered in two chunks that split the frame mid-line. -/
theorem c4_fetch_stream_witness :
    fetchStream ["event: message_".data, "chunk\ndata: null\n\n".data] =
      [StreamEvent.mk "message_chunk".data (some "null".data)] ∧
    parseEvent (frameBody "message_chunk".data "null".data) =
      some ⟨"message_chunk".data, some "null".data⟩ := by
  have h := c4_fetch_stream_well_formed_frames
    ["event: message_".data, "chunk\ndata: null\n\n".data]
    [("message_chunk".data, "null".data)] (by decide) (by decide)
  exact ⟨h.1, h.2 _ _ (by decide) (by decide)⟩

/-! ## The chatStream replay loop (chat.ts, non-mock path) -/

/-- How the `for await` loop of `chatStream` over the replay stream ends:
the underlying stream was exhausted, a `replay_end` event broke out of the
loop, or an `error` event raised an `Error` carrying the event's data. -/
inductive ReplayOutcome
  | streamEnded
  | replayEndSeen
  | errorRaised (data : Option (List Char))
deriving DecidableEq, Repr

/-- The `for await` loop of `chatStream` over the replay stream: a
`replay_end` event breaks out of the loop without being yielded; an `error`
event throws an `Error` carrying the event's data; any other event is
yielded to the caller (in the source as
`{type: event.event, data: JSON.parse(event.data)}`; the JSON decoding is
not modelled, the yielded element stands for the event). -/
def replayLoop : List StreamEvent → List StreamEvent × ReplayOutcome
  | [] => ([], .streamEnded)
  | e :: rest =>
    if e.event = "replay_end".data then ([], .replayEndSeen)
    else if e.event = "error".data then ([], .errorRaised e.data)
    else
      let p := replayLoop rest
      (e :: p.1, p.2)

/-- Terminal events per the spec's glossary: `replay_end` or `error`. -/
def isTerminalEvent (e : StreamEvent) : Bool :=
  e.event == "replay_end".data || e.event == "error".data

theorem replayLoop_fst (events : List StreamEvent) :
    (replayLoop events).1 = events.takeWhile (fun e => !isTerminalEvent e) := by
  induction events with
  | nil => rfl
  | cons e es ih =>
    by_cases h1 : e.event = "replay_end".data
    · simp [replayLoop, h1, List.takeWhile_cons, isTerminalEvent]
    · by_cases h2 : e.event = "error".data
      · simp [replayLoop, h1, h2, List.takeWhile_cons, isTerminalEvent]
      · simp [replayLoop, h1, h2, List.takeWhile_cons, isTerminalEvent, ih]

theorem replayLoop_snd (events : List StreamEvent) :
    (replayLoop events).2 =
      match events.dropWhile (fun e => !isTerminalEvent e) with
      | [] => ReplayOutcome.streamEnded
      | e :: _ =>
        if e.event = "replay_end".data then ReplayOutcome.replayEndSeen
        else ReplayOutcome.errorRaised e.data := by
  induction events with
  | nil => rfl
  | cons e es ih =>
    by_cases h1 : e.event = "replay_end".data
    · simp [replayLoop, h1, List.dropWhile_cons, isTerminalEvent]
    · by_cases h2 : e.event = "error".data
      · simp [replayLoop, h1, h2, List.dropWhile_cons, isTerminalEvent]
      · simp [replayLoop, h1, h2, List.dropWhile_cons, isTerminalEvent, ih]

/-- C3: over any sequence of stream events, the replay loop of `chatStream`
yields exactly the events preceding the first terminal event, in order; if
no terminal event occurs the loop ends with the stream; if the first
terminal event is `replay_end` the loop terminates normally without
yielding it or anything after it; if the first terminal event is an
`error` the loop raises an error carrying that event's data. -/
theorem c3_replay_loop_yields_until_terminal (events : List StreamEvent) :
    (replayLoop events).1 = events.takeWhile (fun e => !isTerminalEvent e) ∧
    (events.dropWhile (fun e => !isTerminalEvent e) = [] →
      (replayLoop events).2 = ReplayOutcome.streamEnded) ∧
    ∀ e rest, events.dropWhile (fun e => !isTerminalEvent e) = e :: rest →
      (e.event = "replay_end".data →
        (replayLoop events).2 = ReplayOutcome.replayEndSeen) ∧
      (e.event ≠ "replay_end".data →
        (replayLoop events).2 = ReplayOutcome.errorRaised e.data) := by
  refine ⟨replayLoop_fst events, ?_, ?_⟩
  · intro h
    rw [replayLoop_snd events, h]
  · intro e rest h
    constructor
    · intro he
      rw [replayLoop_snd events, h]
      simp [he]
    · intro he
      rw [replayLoop_snd events, h]
      simp [he]

/-- Witness: `c3_replay_loop_yields_until_terminal` on a concrete stream
whose second event is terminal (`error`): only the first event is yielded
and the loop raises the error data. -/
theorem c3_replay_loop_witness :
    (replayLoop [⟨"message_chunk".data, some "a".data⟩,
        ⟨"error".data, some "boom".data⟩,
        ⟨"message_chunk".data, some "b".data⟩]).1 =
      [⟨"message_chunk".data, some "a".data⟩] ∧
    (replayLoop [⟨"message_chunk".data, some "a".data⟩,
        ⟨"error".data, some "boom".data⟩,
        ⟨"message_chunk".data, some "b".data⟩]).2 =
      ReplayOutcome.errorRaised (some "boom".data) := by
  have h := c3_replay_loop_yields_until_terminal
    [⟨"message_chunk".data, some "a".data⟩, ⟨"error".data, some "boom".data⟩,
      ⟨"message_chunk".data, some "b".data⟩]
  refine ⟨h.1.trans (by decide), ?_⟩
  exact (h.2.2 ⟨"error".data, some "boom".data⟩
    [⟨"message_chunk".data, some "b".data⟩] (by decide)).2 (by decide)

/-! ## parseEvent edge cases (C9) -/

theorem foldl_parseLineStep_eq (lines : List (List Char))
    (st : List Char × Option (List Char)) :
    lines.foldl parseLineStep st =
      (((lines.filterMap (lineValueFor "event".data)).getLast?).getD st.1,
        ((lines.filterMap (lineValueFor "data".data)).getLast?).or st.2) := by
  induction lines using List.reverseRecOn with
  | nil => simp
  | append_singleton xs x ih =>
    rw [List.foldl_append, List.foldl_cons, List.foldl_nil, ih]
    match hb : breakPair ':' ' ' x with
    | none =>
      rw [parseLineStep_skip hb]
      have he : lineValueFor "event".data x = none := by simp [lineValueFor, hb]
      have hd : lineValueFor "data".data x = none := by simp [lineValueFor, hb]
      simp [List.filterMap_append, he, hd]
    | some (key, value) =>
      by_cases hke : key = "event".data
      · subst hke
        rw [parseLineStep_event hb]
        have he : lineValueFor "event".data x = some value := by
          simp [lineValueFor, hb]
        have hd : lineValueFor "data".data x = none := by
          simp [lineValueFor, hb, (by decide : ¬ ("event".data = "data".data))]
        simp [List.filterMap_append, he, hd, List.getLast?_concat]
      · by_cases hkd : key = "data".data
        · subst hkd
          rw [parseLineStep_data hb]
          have he : lineValueFor "event".data x = none := by
            simp [lineValueFor, hb, (by decide : ¬ ("data".data = "event".data))]
          have hd : lineValueFor "data".data x = some value := by
            simp [lineValueFor, hb]
          simp [List.filterMap_append, he, hd, List.getLast?_concat]
        · rw [parseLineStep_other hb hke hkd]
          have he : lineValueFor "event".data x = none := by
            simp [lineValueFor, hb, hke]
          have hd : lineValueFor "data".data x = none := by
            simp [lineValueFor, hb, hkd]
          simp [List.filterMap_append, he, hd]

theorem parseEvent_eq_none_iff (chunk : List Char) :
    parseEvent chunk = none ↔
      ((lastValueFor "event".data chunk = none ∨
        lastValueFor "event".data chunk = some "message".data) ∧
        hasKeyLine "data".data chunk = false) := by
  unfold parseEvent
  rw [foldl_parseLineStep_eq]
  unfold lastValueFor hasKeyLine keyValues
  cases hev : ((splitNl chunk).filterMap (lineValueFor "event".data)).getLast? with
  | none =>
    cases hda : ((splitNl chunk).filterMap (lineValueFor "data".data)).getLast? with
    | none =>
      have : (splitNl chunk).filterMap (lineValueFor "data".data) = [] :=
        List.getLast?_eq_none_iff.mp hda
      simp [this]
    | some v =>
      have : (splitNl chunk).filterMap (lineValueFor "data".data) ≠ [] := by
        intro h
        rw [h] at hda
        simp at hda
      simp [hda, List.isEmpty_iff, this]
  | some w =>
    cases hda : ((splitNl chunk).filterMap (lineValueFor "data".data)).getLast? with
    | none =>
      have : (splitNl chunk).filterMap (lineValueFor "data".data) = [] :=
        List.getLast?_eq_none_iff.mp hda
      simp [this]
    | some v =>
      have : (splitNl chunk).filterMap (lineValueFor "data".data) ≠ [] := by
        intro h
        rw [h] at hda
        simp at hda
      simp [hda, List.isEmpty_iff, this]

/-- C9, as stated, fails: the chunk `"event: message"` does contain an
`event: ` line, yet `parseEvent` returns `undefined` on it, because an
explicit `event: message` line is indistinguishable from the defaulted
event name. -/
theorem c9_explicit_message_counterexample :
    ¬ (∀ chunk : List Char, parseEvent chunk = none ↔
        (hasKeyLine "event".data chunk = false ∧
          hasKeyLine "data".data chunk = false)) := by
  intro hclaim
  have h := (hclaim "event: message".data).mp (by decide)
  exact absurd h.1 (by decide)

/-- C9 (amended): `parseEvent` returns `undefined` exactly when the chunk
has no `data: ` line and its last `event: ` line, if any, carries the value
`message` (the default name; an explicit `event: message` line also
qualifies); lines lacking the `": "` separator are ignored by the line
loop; and a chunk consisting of a single `data: ` line yields an event of
kind `message`. -/
theorem c9_parse_event_undefined (chunk : List Char) (json : List Char)
    (hj : '\n' ∉ json) :
    (parseEvent chunk = none ↔
      ((lastValueFor "event".data chunk = none ∨
        lastValueFor "event".data chunk = some "message".data) ∧
        hasKeyLine "data".data chunk = false)) ∧
    ((splitNl chunk).filter (fun line => (breakPair ':' ' ' line).isSome)).foldl
        parseLineStep ("message".data, none) =
      (splitNl chunk).foldl parseLineStep ("message".data, none) ∧
    parseEvent ("data: ".data ++ json) = some ⟨"message".data, some json⟩ := by
  refine ⟨parseEvent_eq_none_iff chunk, ?_, ?_⟩
  · have hgen : ∀ (lines : List (List Char)) (st : List Char × Option (List Char)),
        (lines.filter (fun line => (breakPair ':' ' ' line).isSome)).foldl
          parseLineStep st = lines.foldl parseLineStep st := by
      intro lines
      induction lines with
      | nil => intro st; rfl
      | cons l ls ih =>
        intro st
        cases hb : breakPair ':' ' ' l with
        | none =>
          rw [List.foldl_cons, parseLineStep_skip hb, List.filter_cons,
            if_neg (by simp [hb])]
          exact ih st
        | some p =>
          rw [List.foldl_cons, List.filter_cons, if_pos (by simp [hb]),
            List.foldl_cons]
          exact ih (parseLineStep st l)
    exact hgen (splitNl chunk) ("message".data, none)
  · unfold parseEvent
    rw [splitNl_no_nl (nl_not_mem_dataLine hj), List.foldl_cons, List.foldl_nil,
      parseLineStep_data (breakPair_dataLine json)]
    simp

/-- Witness: `c9_parse_event_undefined` at a concrete chunk whose only line
carries an unknown key (`retry`), and the json text `1`. -/
theorem c9_parse_event_undefined_witness :
    (parseEvent "retry: 100".data = none ↔
      ((lastValueFor "event".data "retry: 100".data = none ∨
        lastValueFor "event".data "retry: 100".data = some "message".data) ∧
        hasKeyLine "data".data "retry: 100".data = false)) ∧
    ((splitNl "retry: 100".data).filter
        (fun line => (breakPair ':' ' ' line).isSome)).foldl
        parseLineStep ("message".data, none) =
      (splitNl "retry: 100".data).foldl parseLineStep ("message".data, none) ∧
    parseEvent ("data: ".data ++ "1".data) =
      some ⟨"message".data, some "1".data⟩ :=
  c9_parse_event_undefined "retry: 100".data "1".data (by decide)

/-! ## Task state machine (spec §4.5) -/

/-- Modelled from the spec: the five task statuses (spec §3.1, doc
`TaskStatus` enum); the backend task manager implementation is not part of
this repository snapshot. -/
inductive TaskStatus
  | pending
  | running
  | completed
  | failed
  | cancelled
deriving DecidableEq, Repr

/-- Terminal statuses per spec §4.5: completed, failed, cancelled. -/
def isTerminalStatus : TaskStatus → Bool
  | .completed => true
  | .failed => true
  | .cancelled => true
  | _ => false

/-- The edges of the spec §4.5 state graph: pending may go to running
(admission) or cancelled; running may go to completed, failed, or
cancelled. -/
def statusEdge : TaskStatus → TaskStatus → Bool
  | .pending, .running => true
  | .pending, .cancelled => true
  | .running, .completed => true
  | .running, .failed => true
  | .running, .cancelled => true
  | _, _ => false

/-- Modelled from the spec: the operations that change a task's status
(schedule a pending task to running, complete, fail, cancel). -/
inductive TaskOp
  | schedule
  | complete
  | fail
  | cancel
deriving DecidableEq, Repr

/-- Modelled from the spec: the effect of each operation on the status
(spec §4.4, §4.5).  Cancel is idempotent and terminal statuses are frozen
(spec §4.5, §8.6), so on any status not matched by a transition the
operation leaves the status unchanged. -/
def applyOp : TaskStatus → TaskOp → TaskStatus
  | .pending, .schedule => .running
  | .pending, .cancel => .cancelled
  | .running, .complete => .completed
  | .running, .fail => .failed
  | .running, .cancel => .cancelled
  | s, _ => s

theorem applyOp_step (s : TaskStatus) (op : TaskOp) :
    applyOp s op = s ∨ statusEdge s (applyOp s op) = true := by
  cases s <;> cases op <;> simp [applyOp, statusEdge]

/-- C6: for any initial status and any sequence of task-manager operations,
the sequence of observed status values is a path in the §4.5 state graph
(each consecutive pair is either a stutter or an edge of the graph); and
once the status is terminal (completed, failed, or cancelled), no later
operation changes it. -/
theorem c6_status_transitions (s : TaskStatus) (ops : List TaskOp) :
    List.Chain' (fun a b => b = a ∨ statusEdge a b = true)
      (List.scanl applyOp s ops) ∧
    (∀ (t : TaskStatus) (op : TaskOp), isTerminalStatus t = true →
      applyOp t op = t) := by
  constructor
  · induction ops generalizing s with
    | nil => simp [List.scanl]
    | cons op ops ih =>
      rw [List.scanl]
      refine List.chain'_cons'.mpr ⟨?_, ih (applyOp s op)⟩
      intro h hh
      have hhead : (List.scanl applyOp (applyOp s op) ops).head? =
          some (applyOp s op) := by
        cases ops <;> rfl
      rw [hhead, Option.mem_def, Option.some.injEq] at hh
      subst hh
      exact applyOp_step s op
  · intro t op ht
    cases t
    · exact absurd ht (by decide)
    · exact absurd ht (by decide)
    · cases op <;> rfl
    · cases op <;> rfl
    · cases op <;> rfl

/-- Witness: `c6_status_transitions` on the run
pending → running → completed, followed by an ignored cancel, plus the
frozen-terminal conclusion at (completed, cancel). -/
theorem c6_status_transitions_witness :
    List.Chain' (fun a b => b = a ∨ statusEdge a b = true)
      (List.scanl applyOp TaskStatus.pending
        [TaskOp.schedule, TaskOp.complete, TaskOp.cancel]) ∧
    applyOp TaskStatus.completed TaskOp.cancel = TaskStatus.completed := by
  have h := c6_status_transitions TaskStatus.pending
    [TaskOp.schedule, TaskOp.complete, TaskOp.cancel]
  exact ⟨h.1, h.2 TaskStatus.completed TaskOp.cancel (by decide)⟩

/-! ## checkThreadRunningTask (chat.ts) -/

/-- The response shape of `GET /threads/{id}/running-task` as declared in
the return type of `checkThreadRunningTask`; `progress` is a JS number,
modelled as a rational (no arithmetic is performed on it). -/
structure RunningTaskInfo where
  has_running_task : Bool
  task_id : Option (List Char) := none
  status : Option (List Char) := none
  progress : Option ℚ := none
  current_step : Option (List Char) := none
deriving DecidableEq, Repr

/-- The possible outcomes of `fetch` plus `response.json()` for the
running-task endpoint: the fetch promise rejects (network failure), the
response is non-OK, the body fails to parse as JSON, or a parsed body. -/
inductive FetchJsonOutcome
  | networkFailure
  | httpNotOk (statusText : List Char)
  | bodyNotJson
  | okJson (body : RunningTaskInfo)
deriving DecidableEq, Repr

/-- The `try` block of `checkThreadRunningTask`: a failed fetch or a failed
`json()` propagates as an exception, a non-OK response throws
`检查运行任务失败: <statusText>`, and an OK response returns the parsed
body. -/
def checkThreadRunningTaskTry :
    FetchJsonOutcome → Except (List Char) RunningTaskInfo
  | .networkFailure => .error "fetch failed".data
  | .httpNotOk st => .error ("检查运行任务失败: ".data ++ st)
  | .bodyNotJson => .error "json parse failed".data
  | .okJson body => .ok body

/-- `checkThreadRunningTask`: the `catch` block turns every exception of
the `try` block into `{ has_running_task: false }`; as a total function
into `RunningTaskInfo` it never raises. -/
def checkThreadRunningTask (o : FetchJsonOutcome) : RunningTaskInfo :=
  match checkThreadRunningTaskTry o with
  | .ok r => r
  | .error _ => { has_running_task := false }

/-- C8: `checkThreadRunningTask` never raises (it is a total function into
the response shape): on a network failure or a non-OK HTTP response it
returns `{ has_running_task: false }`, and on success it returns the
parsed response body unchanged. -/
theorem c8_check_running_task_never_raises (o : FetchJsonOutcome) :
    ((o = .networkFailure ∨ ∃ st, o = .httpNotOk st) →
      checkThreadRunningTask o = { has_running_task := false }) ∧
    (∀ body, o = .okJson body → checkThreadRunningTask o = body) := by
  constructor
  · rintro (rfl | ⟨st, rfl⟩) <;> rfl
  · rintro body rfl
    rfl

/-- Witness: `c8_check_running_task_never_raises` at a concrete non-OK
response and at a concrete parsed body. -/
theorem c8_check_running_task_witness :
    checkThreadRunningTask (.httpNotOk "Not Found".data) =
      { has_running_task := false } ∧
    checkThreadRunningTask
        (.okJson { has_running_task := true, task_id := some "t1".data }) =
      { has_running_task := true, task_id := some "t1".data } :=
  ⟨(c8_check_running_task_never_raises (.httpNotOk "Not Found".data)).1
      (Or.inr ⟨"Not Found".data, rfl⟩),
    (c8_check_running_task_never_raises
      (.okJson { has_running_task := true, task_id := some "t1".data })).2 _ rfl⟩

/-! ## chatStream request protocol (chat.ts, non-mock path) -/

/-- The HTTP requests the non-mock path of `chatStream` issues, with the
parameters relevant to the protocol: the task-creating POST to
`chat/async` (its body carries the task config for the given thread), the
lightweight replay probe of the wait loop (`GET chat/replay` with
`continuous=false` and a `Range` header), the task-status poll
(`GET tasks/{task_id}`), and the SSE replay-stream open
(`GET chat/replay`). -/
inductive ChatRequest
  | postChatAsync (thread_id : List Char)
  | getReplayProbe (thread_id query_id continuous offset : List Char)
  | getTaskStatus (task_id : List Char)
  | getReplayStream (thread_id query_id continuous offset : List Char)
deriving DecidableEq, Repr

/-- The quick-check wait loop of `chatStream` (at most 8 attempts): each
iteration fetches the replay URL with `continuous=false`, `offset=0` for
the created task and stops as soon as the probe shows a `research_start`
event (`hit attempt`). -/
def quickCheckLoop (tid qid : List Char) (hit : Nat → Bool) :
    Nat → Nat → List ChatRequest × Bool
  | _, 0 => ([], false)
  | attempt, fuel + 1 =>
    if hit attempt then
      ([ChatRequest.getReplayProbe tid qid "false".data "0".data], true)
    else
      let p := quickCheckLoop tid qid hit (attempt + 1) fuel
      (ChatRequest.getReplayProbe tid qid "false".data "0".data :: p.1, p.2)

/-- The fallback status-check loop of `chatStream` (at most 10 attempts):
each iteration fetches `tasks/{task_id}` and stops when the task reports
running or completed (`hit attempt`). -/
def statusCheckLoop (qid : List Char) (hit : Nat → Bool) :
    Nat → Nat → List ChatRequest × Bool
  | _, 0 => ([], false)
  | attempt, fuel + 1 =>
    if hit attempt then ([ChatRequest.getTaskStatus qid], true)
    else
      let p := statusCheckLoop qid hit (attempt + 1) fuel
      (ChatRequest.getTaskStatus qid :: p.1, p.2)

/-- The request trace of one non-mock `chatStream` invocation: POST the
task config to `chat/async`; if that response is not OK, throw (no further
request).  Otherwise run the quick-check loop with the returned `task_id`,
fall back to the status-check loop when it never hit, and in every case
open the replay stream with `thread_id` of the request, `query_id` equal
to the returned `task_id`, `continuous=true`, `offset=0`. -/
def chatStreamRequests (tid task_id : List Char) (asyncOk : Bool)
    (quickHit statusHit : Nat → Bool) : List ChatRequest :=
  if asyncOk then
    let q := quickCheckLoop tid task_id quickHit 0 8
    let s :=
      if q.2 then (([], true) : List ChatRequest × Bool)
      else statusCheckLoop task_id statusHit 0 10
    ChatRequest.postChatAsync tid ::
      (q.1 ++ s.1 ++
        [ChatRequest.getReplayStream tid task_id "true".data "0".data])
  else [ChatRequest.postChatAsync tid]

theorem quickCheckLoop_probes (tid qid : List Char) (hit : Nat → Bool) :
    ∀ (fuel attempt : Nat), ∀ r ∈ (quickCheckLoop tid qid hit attempt fuel).1,
      r = ChatRequest.getReplayProbe tid qid "false".data "0".data := by
  intro fuel
  induction fuel with
  | zero =>
    intro attempt r hr
    simp [quickCheckLoop] at hr
  | succ n ih =>
    intro attempt r hr
    rw [quickCheckLoop] at hr
    by_cases h : hit attempt
    · rw [if_pos h] at hr
      simpa using hr
    · rw [if_neg h] at hr
      simp only [List.mem_cons] at hr
      rcases hr with rfl | hr
      · rfl
      · exact ih (attempt + 1) r hr

theorem statusCheckLoop_polls (qid : List Char) (hit : Nat → Bool) :
    ∀ (fuel attempt : Nat), ∀ r ∈ (statusCheckLoop qid hit attempt fuel).1,
      r = ChatRequest.getTaskStatus qid := by
  intro fuel
  induction fuel with
  | zero =>
    intro attempt r hr
    simp [statusCheckLoop] at hr
  | succ n ih =>
    intro attempt r hr
    rw [statusCheckLoop] at hr
    by_cases h : hit attempt
    · rw [if_pos h] at hr
      simpa using hr
    · rw [if_neg h] at hr
      simp only [List.mem_cons] at hr
      rcases hr with rfl | hr
      · rfl
      · exact ih (attempt + 1) r hr

/-- C7: in every successful non-mock invocation of `chatStream`, the first
request is the POST of the task config to `chat/async`; the replay stream
is opened only afterwards — every request in between is a wait-loop probe
or a status poll — and it is opened with `thread_id` equal to the
request's thread id, `query_id` equal to the `task_id` returned by the
POST, `continuous` set to `"true"`, and `offset` set to `"0"`. -/
theorem c7_chat_stream_protocol (tid task_id : List Char)
    (quickHit statusHit : Nat → Bool) (asyncOk : Bool) (hok : asyncOk = true) :
    ∃ middle : List ChatRequest,
      chatStreamRequests tid task_id asyncOk quickHit statusHit =
        ChatRequest.postChatAsync tid ::
          (middle ++
            [ChatRequest.getReplayStream tid task_id "true".data "0".data]) ∧
      ∀ r ∈ middle,
        r = ChatRequest.getReplayProbe tid task_id "false".data "0".data ∨
        r = ChatRequest.getTaskStatus task_id := by
  subst hok
  refine ⟨(quickCheckLoop tid task_id quickHit 0 8).1 ++
    (if (quickCheckLoop tid task_id quickHit 0 8).2 then
        (([], true) : List ChatRequest × Bool)
      else statusCheckLoop task_id statusHit 0 10).1, ?_, ?_⟩
  · simp [chatStreamRequests, List.append_assoc]
  · intro r hr
    rcases List.mem_append.mp hr with h | h
    · exact Or.inl (quickCheckLoop_probes tid task_id quickHit 8 0 r h)
    · by_cases hq : (quickCheckLoop tid task_id quickHit 0 8).2
      · rw [if_pos hq] at h
        simp at h
      · rw [if_neg hq] at h
        exact Or.inr (statusCheckLoop_polls task_id statusHit 10 0 r h)

/-- Witness: `c7_chat_stream_protocol` at concrete parameters (thread `T`,
returned task id `X`, first probe succeeding). -/
theorem c7_chat_stream_protocol_witness :
    ∃ middle : List ChatRequest,
      chatStreamRequests "T".data "X".data true (fun _ => true) (fun _ => false) =
        ChatRequest.postChatAsync "T".data ::
          (middle ++
            [ChatRequest.getReplayStream "T".data "X".data "true".data "0".data]) ∧
      ∀ r ∈ middle,
        r = ChatRequest.getReplayProbe "T".data "X".data "false".data "0".data ∨
        r = ChatRequest.getTaskStatus "X".data :=
  c7_chat_stream_protocol "T".data "X".data (fun _ => true) (fun _ => false)
    true rfl

/-! ## Chat history persistence (store.ts, saveChatHistory) -/

/-- The fields of a store `Message` that `saveChatHistory` reads (`id`,
`threadId`, `role`, optional `content`); the remaining fields of the store
message type do not affect the history bookkeeping. -/
structure Message where
  id : List Char
  threadId : List Char
  role : List Char
  content : Option (List Char) := none
deriving DecidableEq, Repr

/-- A persisted `ChatHistory` entry (store.ts, interface `ChatHistory`). -/
structure ChatHistory where
  threadId : List Char
  title : List Char
  lastMessage : List Char
  timestamp : List Char
  messages : List Message
deriving DecidableEq, Repr

/-- The entry `saveChatHistory` builds: the title is the first user
message's content truncated to 50 characters, falling back to `未命名对话`
when missing or empty (JS `||`); `lastMessage` is the last message's
content truncated to 100 characters, falling back to the empty string; the
timestamp is the current time; the messages are copied. -/
def chatHistoryEntry (threadId : List Char) (messages : List Message)
    (now : List Char) : ChatHistory :=
  { threadId := threadId
    title :=
      match (messages.find? (fun m => m.role == "user".data)).bind
          (fun m => m.content) with
      | some c => if (c.take 50).isEmpty then "未命名对话".data else c.take 50
      | none => "未命名对话".data
    lastMessage :=
      match messages.getLast?.bind (fun m => m.content) with
      | some c => c.take 100
      | none => []
    timestamp := now
    messages := messages }

/-- `saveChatHistory` (store.ts): with an empty message list it returns at
once, leaving the stored history unchanged; otherwise the existing entry
for the thread (JS `findIndex`) is replaced in place, a previously unseen
thread's entry is pushed to the front (`unshift`), and only the 50 most
recent conversations are kept (`slice(0, 50)`).  The stored list is passed
in and returned explicitly instead of going through `localStorage`. -/
def saveChatHistory (histories : List ChatHistory) (threadId : List Char)
    (messages : List Message) (now : List Char) : List ChatHistory :=
  if messages.length = 0 then histories
  else
    let entry := chatHistoryEntry threadId messages now
    let updated :=
      match histories.findIdx? (fun h => h.threadId == threadId) with
      | some i => histories.set i entry
      | none => entry :: histories
    updated.take 50

theorem set_of_get?_eq {α : Type} : ∀ (l : List α) (i : Nat) (v : α),
    l.get? i = some v → l.set i v = l
  | [], i, v, h => by simp [List.get?] at h
  | a :: l, 0, v, h => by
    simp [List.get?] at h
    rw [List.set]
    rw [h]
  | a :: l, i + 1, v, h => by
    rw [List.set]
    rw [set_of_get?_eq l i v (by simpa [List.get?] using h)]

theorem findIdx?_some_spec {α : Type} (p : α → Bool) :
    ∀ (l : List α) (s j : Nat), List.findIdx? p l s = some j →
      s ≤ j ∧ ∃ x, l.get? (j - s) = some x ∧ p x = true := by
  intro l
  induction l with
  | nil =>
    intro s j h
    simp [List.findIdx?] at h
  | cons a l ih =>
    intro s j h
    rw [List.findIdx?_cons] at h
    by_cases hp : p a
    · rw [if_pos hp] at h
      cases h
      exact ⟨Nat.le_refl s, a, by simp [Nat.sub_self, List.get?], hp⟩
    · rw [if_neg hp] at h
      obtain ⟨hle, x, hx, hpx⟩ := ih (s + 1) j h
      refine ⟨by omega, x, ?_, hpx⟩
      have : j - s = (j - (s + 1)) + 1 := by omega
      rw [this]
      simpa [List.get?] using hx

theorem saveChatHistory_of_ne {histories : List ChatHistory}
    {threadId : List Char} {messages : List Message} {now : List Char}
    (hne : messages ≠ []) :
    saveChatHistory histories threadId messages now =
      (match histories.findIdx? (fun h : ChatHistory => h.threadId == threadId) with
        | some i => histories.set i (chatHistoryEntry threadId messages now)
        | none => chatHistoryEntry threadId messages now :: histories).take 50 := by
  unfold saveChatHistory
  rw [if_neg (by simpa using hne)]

/-- C10: assuming the stored history holds at most one entry per thread
(which saving maintains), a call to `saveChatHistory` with a non-empty
message list leaves at most 50 entries and still at most one entry per
thread; an existing entry for the thread is replaced in place and a
previously unseen thread's entry is inserted at the front (then truncated
to 50); and a call with an empty message list leaves the stored history
unchanged. -/
theorem c10_save_chat_history_invariants (histories : List ChatHistory)
    (threadId : List Char) (messages : List Message) (now : List Char)
    (hnodup : (histories.map (fun h => h.threadId)).Nodup) :
    (messages = [] → saveChatHistory histories threadId messages now = histories) ∧
    (messages ≠ [] →
      (saveChatHistory histories threadId messages now).length ≤ 50 ∧
      ((saveChatHistory histories threadId messages now).map
        (fun h => h.threadId)).Nodup ∧
      (∀ i, histories.findIdx? (fun h => h.threadId == threadId) = some i →
        saveChatHistory histories threadId messages now =
          (histories.set i (chatHistoryEntry threadId messages now)).take 50) ∧
      (histories.findIdx? (fun h => h.threadId == threadId) = none →
        saveChatHistory histories threadId messages now =
          (chatHistoryEntry threadId messages now :: histories).take 50)) := by
  constructor
  · intro h
    subst h
    rfl
  · intro hne
    rw [saveChatHistory_of_ne hne]
    refine ⟨?_, ?_, ?_, ?_⟩
    · cases hf : histories.findIdx? (fun h => h.threadId == threadId) <;>
        simp [hf, List.length_take]
    · cases hf : histories.findIdx? (fun h => h.threadId == threadId) with
      | none =>
        show (List.map (fun h => h.threadId)
          (List.take 50
            (chatHistoryEntry threadId messages now :: histories))).Nodup
        have hnotmem : threadId ∉ histories.map (fun h => h.threadId) := by
          intro hmem
          obtain ⟨x, hx, hxt⟩ := List.mem_map.mp hmem
          have := List.findIdx?_eq_none_iff.mp hf x hx
          simp [hxt] at this
        refine List.Nodup.sublist (List.map_take (fun h : ChatHistory => h.threadId) _ 50 ▸
          List.take_sublist 50 _) ?_
        rw [List.map_cons]
        exact List.nodup_cons.mpr ⟨hnotmem, hnodup⟩
      | some i =>
        show (List.map (fun h => h.threadId)
          (List.take 50
            (histories.set i (chatHistoryEntry threadId messages now)))).Nodup
        obtain ⟨-, x, hx, hpx⟩ := findIdx?_some_spec
          (fun h => h.threadId == threadId) histories 0 i hf
        rw [Nat.sub_zero] at hx
        have hxt : x.threadId = threadId := by simpa using hpx
        have hmap : (histories.map (fun h => h.threadId)).get? i = some threadId := by
          rw [List.get?_map, hx]
          simp [hxt]
        have hset : (histories.set i (chatHistoryEntry threadId messages now)).map
            (fun h => h.threadId) = histories.map (fun h => h.threadId) := by
          rw [List.map_set]
          exact set_of_get?_eq _ _ _ hmap
        refine List.Nodup.sublist (List.map_take (fun h : ChatHistory => h.threadId) _ 50 ▸
          List.take_sublist 50 _) ?_
        rw [hset]
        exact hnodup
    · intro i hf
      rw [hf]
    · intro hf
      rw [hf]

/-- Witness: `c10_save_chat_history_invariants` at an empty prior history
and one concrete user message for thread `B`. -/
theorem c10_save_chat_history_witness :
    saveChatHistory [] "B".data
        [⟨"m1".data, "B".data, "user".data, some "hi".data⟩] "ts".data =
      (chatHistoryEntry "B".data
          [⟨"m1".data, "B".data, "user".data, some "hi".data⟩] "ts".data ::
        []).take 50 ∧
    ((saveChatHistory [] "B".data
        [⟨"m1".data, "B".data, "user".data, some "hi".data⟩] "ts".data).map
      (fun h => h.threadId)).Nodup := by
  have h := c10_save_chat_history_invariants [] "B".data
    [⟨"m1".data, "B".data, "user".data, some "hi".data⟩] "ts".data (by simp)
  exact ⟨(h.2 (by simp)).2.2.2 rfl, (h.2 (by simp)).2.1⟩

end DeerFlow
